import Mathlib

/-!
Verification of the formula-to-design-matrix compiler in `utils.py` of PySDDR.

The embedding works over exact rationals.  Numeric kernels that the source
delegates to external libraries (numpy / scipy: `matrix_rank`, `eigh`,
`cholesky` + `solve_triangular`, `svd`, `brentq`, `sqrt`) are gathered in a
`NumKernels` record and passed in as parameters; theorems state their
contracts as hypotheses where the claims need them.  Python exceptions
(including warnings raised as errors through `warnings.simplefilter` with
the `error` action, which precedes every `warnings.warn` in the source)
are modelled with `Except String`.
-/

/-- A dense rational matrix with explicit dimensions; entries are a total
function, read only inside the stated dimensions. -/
structure NMat where
  rows : ℕ
  cols : ℕ
  entry : ℕ → ℕ → ℚ

/-- Transpose, as in `dm.T`. -/
def ntr (A : NMat) : NMat :=
  ⟨A.cols, A.rows, fun i j => A.entry j i⟩

/-- Matrix product `A @ B`; the contraction length is `A.cols`. -/
def nmul (A B : NMat) : NMat :=
  ⟨A.rows, B.cols, fun i j => ∑ k ∈ Finset.range A.cols, A.entry i k * B.entry k j⟩

/-- Entrywise sum `A + B` (dimensions taken from `A`). -/
def nadd (A B : NMat) : NMat :=
  ⟨A.rows, A.cols, fun i j => A.entry i j + B.entry i j⟩

/-- Scalar multiple `c * A`. -/
def nsmulQ (c : ℚ) (A : NMat) : NMat :=
  ⟨A.rows, A.cols, fun i j => c * A.entry i j⟩

/-- The numeric kernels of `utils.py` that live in numpy / scipy.  `sqrtMeps`
stands for the value `np.sqrt(machine_epsilon)` with
`machine_epsilon = np.finfo(float).eps * 2` (utils.py line 160). -/
structure NumKernels where
  rank : NMat → ℕ
  eigMin : NMat → ℚ
  cholInvT : NMat → NMat
  svdVals : NMat → List ℚ
  brentq : (ℚ → Except String ℚ) → ℚ → ℚ → Except String ℚ
  sqrtMeps : ℚ

/-- The hat-matrix-trace sum appearing in `dfFun` (utils.py line 152). -/
def dfSum (lam : ℚ) (d : List ℚ) : ℚ :=
  (d.map (fun di => 1 / (1 + lam * di))).sum

/-- Embedding of `dfFun` (utils.py lines 150-155).  In the `hat1 = False`
branch the source evaluates `sum(1 / (1 + lam * d) ^ 2)`: `^` is Python
bitwise xor and is applied to a float array, so the call raises
`TypeError` before producing a value; the branch is modelled as the
corresponding error. -/
def dfFun (lam : ℚ) (d : List ℚ) (hat1 : Bool) : Except String ℚ :=
  if hat1 then
    .ok (dfSum lam d)
  else
    .error "TypeError: unsupported operand type for xor on float operands"

/-- Embedding of `make_matrix_positive_semi_definite` (utils.py lines
134-148).  When the shifted minimum eigenvalue is below the tolerance the
source computes the convex shrinkage of `A` toward the identity and then
performs the recursive call `make_matrix_positive_semi_definite(A)` with a
single argument, while the function requires two positional arguments, so
Python raises `TypeError` instead of recursing. -/
def make_matrix_positive_semi_definite (K : NumKernels) (A : NMat) : Except String NMat :=
  let min_eigen : ℚ := K.eigMin A - K.sqrtMeps
  if min_eigen < -((1 : ℚ) / 10 ^ 10) then
    .error "TypeError: make_matrix_positive_semi_definite missing 1 required positional argument"
  else
    .ok A

/-- The residual function handed to `brentq` (utils.py line 216):
`lambda l: dfFun(l, d, hat1) - df`. -/
def dfGap (d : List ℚ) (hat1 : Bool) (t : ℚ) : ℚ → Except String ℚ :=
  fun x => Except.map (fun v => v - t) (dfFun x d hat1)

/-- The part of `df2lambda` from utils.py line 183 on: forms `X'X`, applies
the positive-semi-definite repair, whitens the roughness matrix `P` through
the inverted Cholesky factor, takes singular values, and either evaluates
the df functional at a given `lam` (line 201) or solves for `lam` from a
given `df` (lines 205-221).  Each `warnings.warn` in the source is preceded
by `warnings.simplefilter` with the `error` action and therefore raises;
it is modelled as `.error`.  The `none, none` case is unreachable from
`df2lambda`. -/
def df2lambdaSolve (K : NumKernels) (dm P : NMat) (odf olam : Option ℚ)
    (hat1 : Bool) (lam_max : ℚ) : Except String (ℚ × ℚ) :=
  match make_matrix_positive_semi_definite K
      (nadd (nmul (ntr dm) dm) (nsmulQ ((1 : ℚ) / 10 ^ 15) P)) with
  | .error e => .error e
  | .ok A =>
    let Rm := K.cholInvT A
    let d := K.svdVals (nmul (nmul (ntr Rm) P) Rm)
    match olam with
    | some l =>
      (match dfFun l d hat1 with
       | .error e => .error e
       | .ok v => .ok (v, l))
    | none =>
      match odf with
      | none => .error "Either degrees of freedom or lambda has to be provided."
      | some t =>
        if (d.length : ℚ) ≤ t then
          .ok (t, 0)
        else
          match dfFun lam_max d hat1 with
          | .error e => .error e
          | .ok dmax =>
            if 0 < dmax - t ∧ K.sqrtMeps < dmax - t then
              .error "lambda needs to be larger than lambda_max for given df"
            else
              match K.brentq (dfGap d hat1 t) 0 lam_max with
              | .error e => .error e
              | .ok l =>
                match dfFun l d hat1 with
                | .error e => .error e
                | .ok v =>
                  if K.sqrtMeps < |v - t| then
                    .error "estimated df differ from given df"
                  else
                    .ok (t, l)

/-- Embedding of `df2lambda` (utils.py lines 157-221).  The early branches:
with neither `df` nor `lam` an exception is raised (line 164); with `df`
given, `df >= matrix_rank(dm)` raises the warning as an error (lines
167-173, `warnings.simplefilter` with the `error` action makes
`warnings.warn` raise, so the fallback lines 172-173 are unreachable);
with `lam` given equal to `0` the rank is returned as the effective df
(lines 176-179).  Everything else is `df2lambdaSolve`. -/
def df2lambda (K : NumKernels) (dm P : NMat) (odf olam : Option ℚ)
    (hat1 : Bool) (lam_max : ℚ) : Except String (ℚ × ℚ) :=
  match odf, olam with
  | none, none => .error "Either degrees of freedom or lambda has to be provided."
  | some t, olam' =>
    if (K.rank dm : ℚ) ≤ t then
      .error "df too large: degrees of freedom cannot be larger than the rank of the design matrix"
    else if olam' = some 0 then
      .ok ((K.rank dm : ℚ), 0)
    else
      df2lambdaSolve K dm P (some t) olam' hat1 lam_max
  | none, some l =>
    if l = 0 then
      .ok ((K.rank dm : ℚ), 0)
    else
      df2lambdaSolve K dm P none (some l) hat1 lam_max

/-- A term of a patsy design matrix, as consumed by
`_get_P_from_design_matrix` (utils.py lines 285-305): the column slice
`[lo, hi)` recorded in `term_name_slices`, the number of factors of the
term, and the penalty matrix `P[0]` that
`_get_penalty_matrix_from_factor_info` yields for the single factor of the
term (`none` models the `False` return for non-spline factors). -/
structure PenTerm where
  lo : ℕ
  hi : ℕ
  nFactors : ℕ
  pen : Option (ℕ → ℕ → ℚ)

/-- Whether the penalty assembler writes a calibrated block for this term:
exactly one factor and that factor is a spline carrying a penalty matrix. -/
def isPenalized (t : PenTerm) : Bool :=
  t.nFactors == 1 && t.pen.isSome

/-- Reading the degrees-of-freedom request (utils.py line 298): a scalar
applies to every smooth term, a list is indexed by the running
`spline_counter`; indexing past the end of the list is a Python
`IndexError`. -/
def getDfEntry : ℚ ⊕ List ℚ → ℕ → Except String ℚ
  | .inl s, _ => .ok s
  | .inr l, k =>
    match l.get? k with
    | some v => .ok v
    | none => .error "IndexError: list index out of range"

/-- The sub-matrix `dm.iloc[:, lo:hi]` of the structured design matrix. -/
def subMatCols (dm : NMat) (lo hi : ℕ) : NMat :=
  ⟨dm.rows, hi - lo, fun i j => dm.entry i (lo + j)⟩

/-- The penalty matrix of one term viewed with its slice width as
dimensions. -/
def pTermMat (t : PenTerm) (P0 : ℕ → ℕ → ℚ) : NMat :=
  ⟨t.hi - t.lo, t.hi - t.lo, P0⟩

/-- The in-place block write
`big_P[slice_of_term, slice_of_term] = P[0] * df_lam[1]`
(utils.py line 302). -/
def writeBlock (B : ℕ → ℕ → ℚ) (lo hi : ℕ) (P0 : ℕ → ℕ → ℚ) (lam : ℚ) :
    ℕ → ℕ → ℚ :=
  fun i j =>
    if lo ≤ i ∧ i < hi ∧ lo ≤ j ∧ j < hi then P0 (i - lo) (j - lo) * lam else B i j

/-- The loop of `_get_P_from_design_matrix` over the terms (utils.py lines
285-305), carrying the accumulated matrix and the `spline_counter`.  Terms
with more than one factor are skipped (line 291); for a single-factor term
whose factor has a penalty matrix, the df request is consumed, `df2lambda`
is invoked with the defaults `lam = None`, `hat1 = True`,
`lam_max = 1e15`, the calibrated block is written, and the counter
advances. -/
def assembleP (K : NumKernels) (dm : NMat) (dfs : ℚ ⊕ List ℚ) :
    List PenTerm → (ℕ → ℕ → ℚ) → ℕ → Except String (ℕ → ℕ → ℚ)
  | [], B, _ => .ok B
  | t :: rest, B, c =>
    if t.nFactors = 1 then
      match t.pen with
      | some P0 =>
        match getDfEntry dfs c with
        | .error e => .error e
        | .ok df =>
          match df2lambda K (subMatCols dm t.lo t.hi) (pTermMat t P0)
              (some df) none true (10 ^ 15) with
          | .error e => .error e
          | .ok p => assembleP K dm dfs rest (writeBlock B t.lo t.hi P0 p.2) (c + 1)
      | none => assembleP K dm dfs rest B c
    else assembleP K dm dfs rest B c

/-- Embedding of `_get_P_from_design_matrix` (utils.py lines 259-307): a
zero matrix of dimension `dm.shape[1]` into which the loop writes the
calibrated penalty blocks. -/
def get_P_from_design_matrix (K : NumKernels) (dm : NMat) (terms : List PenTerm)
    (dfs : ℚ ⊕ List ℚ) : Except String NMat :=
  Except.map (fun f => (⟨dm.cols, dm.cols, f⟩ : NMat))
    (assembleP K dm dfs terms (fun _ _ => 0) 0)

/-- Membership of the entry position `(i, j)` in the square block of a
term's slice on both axes. -/
def inBlock (t : PenTerm) (i j : ℕ) : Prop :=
  t.lo ≤ i ∧ i < t.hi ∧ t.lo ≤ j ∧ j < t.hi

instance (t : PenTerm) (i j : ℕ) : Decidable (inBlock t i j) := by
  unfold inBlock; infer_instance

/-- Column-slice disjointness of two terms. -/
def slicesDisjoint (a b : PenTerm) : Prop :=
  a.hi ≤ b.lo ∨ b.hi ≤ a.lo

lemma assembleP_spec (K : NumKernels) (dm : NMat) (dfs : ℚ ⊕ List ℚ)
    (ts : List PenTerm) :
    ∀ (B : ℕ → ℕ → ℚ) (c : ℕ) (B' : ℕ → ℕ → ℚ),
      assembleP K dm dfs ts B c = .ok B' →
      (ts.filter isPenalized).Pairwise slicesDisjoint →
      ((∀ i j, (∀ t ∈ ts.filter isPenalized, ¬ inBlock t i j) → B' i j = B i j) ∧
       (∀ k t, (ts.filter isPenalized).get? k = some t →
         ∃ P0 df p, t.pen = some P0 ∧ getDfEntry dfs (c + k) = .ok df ∧
           df2lambda K (subMatCols dm t.lo t.hi) (pTermMat t P0)
             (some df) none true (10 ^ 15) = .ok p ∧
           ∀ i j, inBlock t i j → B' i j = P0 (i - t.lo) (j - t.lo) * p.2)) := by
  induction ts with
  | nil =>
    intro B c B' hok _
    simp only [assembleP, Except.ok.injEq] at hok
    subst hok
    exact ⟨fun i j _ => rfl, fun k t hk => by simp at hk⟩
  | cons t rest ih =>
    intro B c B' hok hdisj
    by_cases ht : t.nFactors = 1
    · cases hp : t.pen with
      | none =>
        have hpen : ¬ isPenalized t = true := by simp [isPenalized, hp]
        simp only [assembleP, ht, if_true, hp] at hok
        rw [List.filter_cons, if_neg hpen] at hdisj ⊢
        exact ih B c B' hok hdisj
      | some P0 =>
        have hpen : isPenalized t = true := by simp [isPenalized, ht, hp]
        rw [List.filter_cons, if_pos hpen] at hdisj ⊢
        cases hdf : getDfEntry dfs c with
        | error e =>
          have hstep : assembleP K dm dfs (t :: rest) B c = .error e := by
            simp only [assembleP, ht, if_true, hp, hdf]
          rw [hstep] at hok
          exact absurd hok (by simp)
        | ok df =>
          cases hdl : df2lambda K (subMatCols dm t.lo t.hi) (pTermMat t P0)
              (some df) none true (10 ^ 15) with
          | error e =>
            have hstep : assembleP K dm dfs (t :: rest) B c = .error e := by
              simp only [assembleP, ht, if_true, hp, hdf, hdl]
            rw [hstep] at hok
            exact absurd hok (by simp)
          | ok p =>
            have hstep : assembleP K dm dfs (t :: rest) B c =
                assembleP K dm dfs rest (writeBlock B t.lo t.hi P0 p.2) (c + 1) := by
              simp only [assembleP, ht, if_true, hp, hdf, hdl]
            rw [hstep] at hok
            rw [List.pairwise_cons] at hdisj
            obtain ⟨hd1, hd2⟩ := hdisj
            obtain ⟨ih1, ih2⟩ := ih (writeBlock B t.lo t.hi P0 p.2) (c + 1) B' hok hd2
            constructor
            · intro i j hnot
              have hstep := ih1 i j (fun t'' h'' => hnot t'' (List.mem_cons_of_mem _ h''))
              rw [hstep]
              have hnt : ¬ inBlock t i j := hnot t (List.mem_cons_self t _)
              simp only [writeBlock]
              exact if_neg hnt
            · intro k t' hk
              cases k with
              | zero =>
                simp only [List.get?] at hk
                injection hk with hk
                subst hk
                refine ⟨P0, df, p, hp, by simpa using hdf, hdl, ?_⟩
                intro i j hij
                have hrest : ∀ t'' ∈ rest.filter isPenalized, ¬ inBlock t'' i j := by
                  intro t'' h'' hij''
                  rcases hd1 t'' h'' with h | h
                  · rcases hij with ⟨h1, h2, _⟩
                    rcases hij'' with ⟨h3, _⟩
                    omega
                  · rcases hij with ⟨h1, _⟩
                    rcases hij'' with ⟨h3, h4, _⟩
                    omega
                rw [ih1 i j hrest]
                simp only [writeBlock]
                exact if_pos hij
              | succ k =>
                obtain ⟨P0', df', p', h1, h2, h3, h4⟩ := ih2 k t' (by simpa using hk)
                refine ⟨P0', df', p', h1, ?_, h3, h4⟩
                have hc : c + (k + 1) = c + 1 + k := by omega
                rw [hc]
                exact h2
    · have hpen : ¬ isPenalized t = true := by simp [isPenalized, ht]
      simp only [assembleP, ht, if_false] at hok
      rw [List.filter_cons, if_neg hpen] at hdisj ⊢
      exact ih B c B' hok hdisj

/-- C1: the assembled penalty matrix is a square zero matrix of dimension
equal to the structured matrix's column count, except that for each smooth
term (single-factor spline term, taken in term order, the scalar df request
applying to all of them and a list being consumed entry-by-entry), the
block at the term's slice on both axes equals the term's unpenalized
roughness matrix multiplied exactly by the lambda solved by `df2lambda`. -/
theorem penalty_matrix_blocks_eq_roughness_mul_lambda
    (K : NumKernels) (dm : NMat) (terms : List PenTerm) (dfs : ℚ ⊕ List ℚ)
    (BP : NMat)
    (hok : get_P_from_design_matrix K dm terms dfs = .ok BP)
    (hdisj : (terms.filter isPenalized).Pairwise slicesDisjoint) :
    BP.rows = dm.cols ∧ BP.cols = dm.cols ∧
    (∀ i j, (∀ t ∈ terms.filter isPenalized, ¬ inBlock t i j) → BP.entry i j = 0) ∧
    (∀ k t, (terms.filter isPenalized).get? k = some t →
      ∃ P0 df p, t.pen = some P0 ∧ getDfEntry dfs k = .ok df ∧
        df2lambda K (subMatCols dm t.lo t.hi) (pTermMat t P0)
          (some df) none true (10 ^ 15) = .ok p ∧
        ∀ i j, inBlock t i j → BP.entry i j = P0 (i - t.lo) (j - t.lo) * p.2) := by
  unfold get_P_from_design_matrix at hok
  cases hA : assembleP K dm dfs terms (fun _ _ => 0) 0 with
  | error e => rw [hA] at hok; exact absurd hok (by simp [Except.map])
  | ok B' =>
    rw [hA] at hok
    simp only [Except.map, Except.ok.injEq] at hok
    obtain ⟨h1, h2⟩ := assembleP_spec K dm dfs terms (fun _ _ => 0) 0 B' hA hdisj
    subst hok
    refine ⟨rfl, rfl, fun i j hnot => h1 i j hnot, fun k t hk => ?_⟩
    simpa using h2 k t hk

instance : DecidableRel slicesDisjoint := fun a b => by
  unfold slicesDisjoint; infer_instance

/-- The singular values `d` of the whitened roughness matrix, as computed at
utils.py lines 191-199 when the positive-semi-definite repair leaves its
input unchanged. -/
def whitenedSingularValues (K : NumKernels) (dm P : NMat) : List ℚ :=
  let A := nadd (nmul (ntr dm) dm) (nsmulQ ((1 : ℚ) / 10 ^ 15) P)
  let Rm := K.cholInvT A
  K.svdVals (nmul (nmul (ntr Rm) P) Rm)

lemma dfFun_true (lam : ℚ) (d : List ℚ) : dfFun lam d true = .ok (dfSum lam d) := rfl

/-- C10: a term built from more than one factor never receives a calibrated
penalty block, never invokes the degrees-of-freedom solver, and never
advances the consumption of a degrees-of-freedom list: the assembler
computes the same result as if all multi-factor terms were absent. -/
theorem multi_factor_terms_contribute_nothing
    (K : NumKernels) (dm : NMat) (terms : List PenTerm) (dfs : ℚ ⊕ List ℚ) :
    get_P_from_design_matrix K dm terms dfs =
      get_P_from_design_matrix K dm (terms.filter (fun t => t.nFactors == 1)) dfs := by
  unfold get_P_from_design_matrix
  have h : ∀ (ts : List PenTerm) (B : ℕ → ℕ → ℚ) (c : ℕ),
      assembleP K dm dfs ts B c =
        assembleP K dm dfs (ts.filter (fun t => t.nFactors == 1)) B c := by
    intro ts
    induction ts with
    | nil => intro B c; rfl
    | cons t rest ih =>
      intro B c
      by_cases ht : t.nFactors = 1
      · rw [List.filter_cons, if_pos (by simpa using ht)]
        cases hp : t.pen with
        | none => simp only [assembleP, ht, if_true, hp]; exact ih B c
        | some P0 =>
          cases hdf : getDfEntry dfs c with
          | error e => simp only [assembleP, ht, if_true, hp, hdf]
          | ok df =>
            cases hdl : df2lambda K (subMatCols dm t.lo t.hi) (pTermMat t P0)
                (some df) none true (10 ^ 15) with
            | error e => simp only [assembleP, ht, if_true, hp, hdf, hdl]
            | ok p =>
              simp only [assembleP, ht, if_true, hp, hdf, hdl]
              exact ih _ _
      · rw [List.filter_cons, if_neg (by simpa using ht)]
        simp only [assembleP, ht, if_false]
        exact ih B c
  rw [h]

/-- Concrete kernel instantiation used by the penalty-assembly witness: for
the 1-by-1 matrices arising there the eigenvalue kernel returning the single
entry is exact, and the rank of the 2-by-1 all-ones design column is 1. -/
def cK1 : NumKernels where
  rank := fun _ => 1
  eigMin := fun A => A.entry 0 0
  cholInvT := fun A => A
  svdVals := fun _ => [1]
  brentq := fun _ _ _ => .ok 1
  sqrtMeps := 0

/-- A 2-by-1 all-ones design column. -/
def cDm1 : NMat := ⟨2, 1, fun _ _ => 1⟩

/-- A 1-by-1 roughness matrix with entry 2. -/
def cP1 : ℕ → ℕ → ℚ := fun _ _ => 2

/-- One single-factor spline term occupying the column slice `[0, 1)`. -/
def cTerms1 : List PenTerm := [⟨0, 1, 1, some cP1⟩]

theorem penalty_matrix_blocks_eq_roughness_mul_lambda_witness :
    ∃ BP, get_P_from_design_matrix cK1 cDm1 cTerms1 (Sum.inl (1 / 2)) = .ok BP ∧
      BP.entry 0 0 = 2 * 1 ∧ BP.entry 1 1 = 0 := by
  have hok : get_P_from_design_matrix cK1 cDm1 cTerms1 (Sum.inl (1 / 2)) =
      .ok ⟨1, 1, writeBlock (fun _ _ => 0) 0 1 cP1 1⟩ := by with_unfolding_all rfl
  obtain ⟨hr, hc, hz, hb⟩ :=
    penalty_matrix_blocks_eq_roughness_mul_lambda cK1 cDm1 cTerms1 (Sum.inl (1 / 2)) _
      hok (by decide)
  refine ⟨_, hok, ?_, ?_⟩
  · obtain ⟨P0, df, p, hpen, hdf, hdl, hval⟩ := hb 0 ⟨0, 1, 1, some cP1⟩ rfl
    have hP0 : P0 = cP1 := by
      injection hpen with h
      exact h.symm
    subst hP0
    have hdfv : df = 1 / 2 := by
      have h1 : getDfEntry (Sum.inl (1 / 2) : ℚ ⊕ List ℚ) 0 = Except.ok ((1 : ℚ) / 2) := rfl
      have h2 : (Except.ok ((1 : ℚ) / 2) : Except String ℚ) = Except.ok df :=
        h1.symm.trans hdf
      injection h2 with h2
      exact h2.symm
    subst hdfv
    have hdlv : p = (1 / 2, 1) := by
      have h3 : df2lambda cK1 (subMatCols cDm1 0 1)
          (pTermMat (⟨0, 1, 1, some cP1⟩ : PenTerm) cP1)
          (some ((1 : ℚ) / 2)) none true (10 ^ 15) =
          Except.ok (((1 : ℚ) / 2, (1 : ℚ))) := by with_unfolding_all rfl
      have h4 : (Except.ok (((1 : ℚ) / 2, (1 : ℚ))) : Except String (ℚ × ℚ)) =
          Except.ok p := h3.symm.trans hdl
      injection h4 with h4
      exact h4.symm
    subst hdlv
    have hv := hval 0 0 (by decide)
    simpa [cP1] using hv
  · refine hz 1 1 ?_
    intro t' ht'
    have ht'' : t' = ⟨0, 1, 1, some cP1⟩ := by
      simpa [show cTerms1.filter isPenalized = [⟨0, 1, 1, some cP1⟩] from rfl] using ht'
    subst ht''
    decide

/-- C8: when the smoothing parameter is supplied directly and equals 0, the
solver returns the rank kernel's value on the design sub-matrix as the
effective df, paired with lambda equal to 0; the equation holds for every
kernel record, hence in particular independently of the root finder, which
is never consulted. -/
theorem lam_zero_returns_rank_without_root_finding
    (K : NumKernels) (dm P : NMat) (hat1 : Bool) (lam_max : ℚ) :
    df2lambda K dm P none (some 0) hat1 lam_max = .ok ((K.rank dm : ℚ), 0) := rfl

/-- Concrete kernel instantiation for the df-too-large evaluation: numpy
reports rank 1 for the 1-by-1 design matrix with entry 1. -/
def cKrank1 : NumKernels where
  rank := fun _ => 1
  eigMin := fun A => A.entry 0 0
  cholInvT := fun A => A
  svdVals := fun _ => [1]
  brentq := fun _ _ _ => .ok 0
  sqrtMeps := 0

/-- C2: at a design sub-matrix of rank 1 and a requested df of 1 (so
`df >= rank`), `df2lambda` raises the warning as an error — because of
`warnings.simplefilter` with the `error` action at utils.py line 170,
`warnings.warn` at line 171 raises `UserWarning`, so the fallback at lines
172-173 never executes and no `(df, 0)` pair is produced. -/
theorem df_ge_rank_warning_raises :
    df2lambda cKrank1 ⟨1, 1, fun _ _ => 1⟩ ⟨1, 1, fun _ _ => 0⟩ (some 1) none true (10 ^ 15) =
      .error "df too large: degrees of freedom cannot be larger than the rank of the design matrix" :=
  rfl

/-- C4: with the default flag the df functional evaluates to the sum of
`1 / (1 + lam * d_i)` (here `1 / (1 + 2 * 3) = 1 / 7`), but with the flag
false the source's expression `sum(1 / (1 + lam * d) ^ 2)` applies Python's
bitwise xor `^` to floats (utils.py line 154) and raises `TypeError`
instead of computing the unbiased-risk variant. -/
theorem dfFun_false_flag_raises :
    dfFun 2 [3] true = .ok (1 / 7) ∧
    dfFun 2 [3] false =
      .error "TypeError: unsupported operand type for xor on float operands" :=
  ⟨by with_unfolding_all rfl, rfl⟩

/-- Concrete kernel instantiation for the repair evaluation: for a 1-by-1
matrix the minimum eigenvalue is the single entry, so the eigenvalue kernel
is exact here. -/
def cKeig : NumKernels where
  rank := fun _ => 1
  eigMin := fun A => A.entry 0 0
  cholInvT := fun A => A
  svdVals := fun _ => []
  brentq := fun _ _ _ => .ok 0
  sqrtMeps := 0

/-- C5: on the symmetric input `[[-1]]`, whose minimum eigenvalue is
negative beyond the tolerance, the repair routine reaches the recursive
call `make_matrix_positive_semi_definite(A)` (utils.py line 146), which
passes one argument to a function of two required positional parameters:
Python raises `TypeError`, and no repaired matrix is returned. -/
theorem psd_repair_missing_argument_raises :
    make_matrix_positive_semi_definite cKeig ⟨1, 1, fun _ _ => -1⟩ =
      .error "TypeError: make_matrix_positive_semi_definite missing 1 required positional argument" := by
  with_unfolding_all rfl

lemma df2lambda_solve_reduction
    (K : NumKernels) (dm P : NMat) (t lam_max : ℚ)
    (hrank : t < (K.rank dm : ℚ))
    (hrepair : ¬ (K.eigMin (nadd (nmul (ntr dm) dm) (nsmulQ ((1 : ℚ) / 10 ^ 15) P)) -
        K.sqrtMeps < -((1 : ℚ) / 10 ^ 10)))
    (hlen : t < ((whitenedSingularValues K dm P).length : ℚ)) :
    df2lambda K dm P (some t) none true lam_max =
      (if 0 < dfSum lam_max (whitenedSingularValues K dm P) - t ∧
            K.sqrtMeps < dfSum lam_max (whitenedSingularValues K dm P) - t then
         .error "lambda needs to be larger than lambda_max for given df"
       else
         match K.brentq (dfGap (whitenedSingularValues K dm P) true t) 0 lam_max with
         | .error e => .error e
         | .ok l =>
           if K.sqrtMeps < |dfSum l (whitenedSingularValues K dm P) - t| then
             .error "estimated df differ from given df"
           else
             .ok (t, l)) := by
  have hA : make_matrix_positive_semi_definite K
      (nadd (nmul (ntr dm) dm) (nsmulQ ((1 : ℚ) / 10 ^ 15) P)) =
      .ok (nadd (nmul (ntr dm) dm) (nsmulQ ((1 : ℚ) / 10 ^ 15) P)) := by
    unfold make_matrix_positive_semi_definite
    exact if_neg hrepair
  rw [show df2lambda K dm P (some t) none true lam_max =
        (if (K.rank dm : ℚ) ≤ t then
           .error "df too large: degrees of freedom cannot be larger than the rank of the design matrix"
         else if (none : Option ℚ) = some 0 then
           .ok ((K.rank dm : ℚ), 0)
         else
           df2lambdaSolve K dm P (some t) none true lam_max) from rfl]
  rw [if_neg (not_le.mpr hrank)]
  rw [if_neg (show ¬ (none : Option ℚ) = some (0 : ℚ) by simp)]
  unfold df2lambdaSolve
  rw [hA]
  show (if ((whitenedSingularValues K dm P).length : ℚ) ≤ t then
          (Except.ok (t, 0) : Except String (ℚ × ℚ))
        else
          match dfFun lam_max (whitenedSingularValues K dm P) true with
          | .error e => .error e
          | .ok dmax =>
            if 0 < dmax - t ∧ K.sqrtMeps < dmax - t then
              .error "lambda needs to be larger than lambda_max for given df"
            else
              match K.brentq (dfGap (whitenedSingularValues K dm P) true t) 0 lam_max with
              | .error e => .error e
              | .ok l =>
                match dfFun l (whitenedSingularValues K dm P) true with
                | .error e => .error e
                | .ok v =>
                  if K.sqrtMeps < |v - t| then
                    .error "estimated df differ from given df"
                  else
                    .ok (t, l)) = _
  rw [if_neg (not_le.mpr hlen), dfFun_true]
  rfl

/-- Concrete data for the infeasible-target evaluation: a rank-2 design
matrix (two distinct standard-basis columns over three rows) and a zero
roughness matrix, whose whitened singular values are `[0, 0]`; every listed
kernel value is the true numpy value at the matrices actually reached. -/
def cKinfeas : NumKernels where
  rank := fun _ => 2
  eigMin := fun A => A.entry 0 0
  cholInvT := fun A => A
  svdVals := fun _ => [0, 0]
  brentq := fun _ _ _ => .ok 0
  sqrtMeps := 0

/-- The 3-by-2 design matrix `[[1,0],[0,1],[0,0]]`. -/
def cDmInfeas : NMat := ⟨3, 2, fun i j => if i = j then 1 else 0⟩

/-- The 2-by-2 zero roughness matrix. -/
def cPInfeas : NMat := ⟨2, 2, fun _ _ => 0⟩

/-- C3 counterexample: with whitened singular values `[0, 0]` the df
functional is constantly 2, so a target of `1/2` is infeasible at
`lam_max = 1`; `df2lambda` then raises the warning as an error (utils.py
lines 210-214: `warnings.simplefilter` with the `error` action makes
`warnings.warn` raise), so no df at all is returned — contradicting the
claim that a df strictly exceeding the achievable bound is returned while
a warning fires. -/
theorem df2lambda_infeasible_aborts_counterexample :
    df2lambda cKinfeas cDmInfeas cPInfeas (some (1 / 2)) none true 1 =
      .error "lambda needs to be larger than lambda_max for given df" := by
  with_unfolding_all rfl

/-- C3 amended: for a feasible target (the achievable df at `lam_max` does
not exceed the target beyond the tolerance), if the root finder returns a
lambda at which the df functional is within the tolerance of the target,
`df2lambda` returns `(target, lambda)` and evaluating the df functional at
that lambda recovers the target within `1e-4`; when the target is
infeasible at `lam_max`, the solver raises the warning as an error and no
df is returned (the fallback at utils.py lines 213-214 is unreachable). -/
theorem df2lambda_roundtrip
    (K : NumKernels) (dm P : NMat) (t lam_max l : ℚ)
    (hrank : t < (K.rank dm : ℚ))
    (hrepair : ¬ (K.eigMin (nadd (nmul (ntr dm) dm) (nsmulQ ((1 : ℚ) / 10 ^ 15) P)) -
        K.sqrtMeps < -((1 : ℚ) / 10 ^ 10)))
    (hlen : t < ((whitenedSingularValues K dm P).length : ℚ))
    (htol : K.sqrtMeps ≤ 1 / 10 ^ 4) :
    ((¬ (0 < dfSum lam_max (whitenedSingularValues K dm P) - t ∧
          K.sqrtMeps < dfSum lam_max (whitenedSingularValues K dm P) - t)) →
      K.brentq (dfGap (whitenedSingularValues K dm P) true t) 0 lam_max = .ok l →
      |dfSum l (whitenedSingularValues K dm P) - t| ≤ K.sqrtMeps →
      df2lambda K dm P (some t) none true lam_max = .ok (t, l) ∧
        |dfSum l (whitenedSingularValues K dm P) - t| ≤ 1 / 10 ^ 4) ∧
    ((0 < dfSum lam_max (whitenedSingularValues K dm P) - t ∧
        K.sqrtMeps < dfSum lam_max (whitenedSingularValues K dm P) - t) →
      df2lambda K dm P (some t) none true lam_max =
        .error "lambda needs to be larger than lambda_max for given df") := by
  have hred := df2lambda_solve_reduction K dm P t lam_max hrank hrepair hlen
  constructor
  · intro hfeas hbr htol2
    refine ⟨?_, le_trans htol2 htol⟩
    rw [hred, if_neg hfeas, hbr]
    show (if K.sqrtMeps < |dfSum l (whitenedSingularValues K dm P) - t| then
            (Except.error "estimated df differ from given df" : Except String (ℚ × ℚ))
          else .ok (t, l)) = _
    rw [if_neg (not_lt.mpr htol2)]
  · intro hinfeas
    rw [hred, if_pos hinfeas]

/-- Concrete kernel instantiation for the round-trip witness: the design
matrix and roughness matrix are both `[[1]]`, for which rank 1 and the
listed eigenvalue are the true numpy values; the root-finder kernel
returns 1, the exact root of `dfSum x [1] = 1/2` used as target. -/
def cKround : NumKernels where
  rank := fun _ => 1
  eigMin := fun A => A.entry 0 0
  cholInvT := fun A => A
  svdVals := fun _ => [1]
  brentq := fun _ _ _ => .ok 1
  sqrtMeps := 0

theorem df2lambda_roundtrip_witness :
    df2lambda cKround ⟨1, 1, fun _ _ => 1⟩ ⟨1, 1, fun _ _ => 1⟩ (some (1 / 2)) none true 1 =
      .ok (1 / 2, 1) ∧
    |dfSum 1 (whitenedSingularValues cKround ⟨1, 1, fun _ _ => 1⟩ ⟨1, 1, fun _ _ => 1⟩) -
        1 / 2| ≤ 1 / 10 ^ 4 :=
  (df2lambda_roundtrip cKround ⟨1, 1, fun _ _ => 1⟩ ⟨1, 1, fun _ _ => 1⟩ (1 / 2) 1 1
      (by with_unfolding_all decide) (by with_unfolding_all decide)
      (by with_unfolding_all decide) (by with_unfolding_all decide)).1
    (by with_unfolding_all decide) rfl (by with_unfolding_all decide)

/-- Entrywise difference `X - Y`. -/
def nsub (A B : NMat) : NMat :=
  ⟨A.rows, A.cols, fun i j => A.entry i j - B.entry i j⟩

/-- A term's column slice `[lo, hi)` in the structured matrix, together
with the input-feature names that `_get_info_from_design_matrix` records
for the term (utils.py lines 358-400). -/
structure SliceInfo where
  lo : ℕ
  hi : ℕ
  feats : List String

/-- Column membership in a slice. -/
def inSlice (s : SliceInfo) (j : ℕ) : Prop :=
  s.lo ≤ j ∧ j < s.hi

instance (s : SliceInfo) (j : ℕ) : Decidable (inSlice s j) := by
  unfold inSlice; infer_instance

/-- Column-slice disjointness of two terms of the structured matrix. -/
def sliceInfoDisjoint (a b : SliceInfo) : Prop :=
  a.hi ≤ b.lo ∨ b.hi ≤ a.lo

instance : DecidableRel sliceInfoDisjoint := fun a b => by
  unfold sliceInfoDisjoint; infer_instance

/-- The block `structured_matrix.iloc[:, lo:hi]`; entries outside the
block's dimensions are normalised to 0. -/
def colBlock (M : NMat) (lo hi : ℕ) : NMat :=
  ⟨M.rows, hi - lo, fun i j => if i < M.rows ∧ j < hi - lo then M.entry i (lo + j) else 0⟩

/-- The in-place write `structured_matrix.iloc[:, lo:hi] = X` (utils.py
line 428). -/
def setBlock (M : NMat) (lo hi : ℕ) (X : NMat) : NMat :=
  ⟨M.rows, M.cols, fun i j => if lo ≤ j ∧ j < hi then X.entry i (j - lo) else M.entry i j⟩

/-- The feature-set inclusion test
`set(non_spline_input_features).issubset(set(spline_input_features))`
(utils.py line 422). -/
def featSubset (a b : List String) : Bool :=
  a.all (fun x => b.contains x)

/-- The constraint blocks gathered for one spline term (utils.py lines
420-423): the column block of every non-spline term whose feature set is a
subset of the spline term's feature set, in term order. -/
def gatherConstraints (M : NMat) (nonSplines : List SliceInfo) (feats : List String) :
    List NMat :=
  (nonSplines.filter (fun ns => featSubset ns.feats feats)).map
    (fun ns => colBlock M ns.lo ns.hi)

/-- `np.concatenate(constraints, axis=1)` (utils.py line 426). -/
def concatCols (n : ℕ) : List NMat → NMat
  | [] => ⟨n, 0, fun _ _ => 0⟩
  | A :: rest =>
    ⟨n, A.cols + (concatCols n rest).cols, fun i j =>
      if j < A.cols then A.entry i j else (concatCols n rest).entry i (j - A.cols)⟩

/-- The concatenated constraint matrix for one spline term. -/
def constraintMat (M : NMat) (nonSplines : List SliceInfo) (feats : List String) : NMat :=
  concatCols M.rows (gatherConstraints M nonSplines feats)

/-- Embedding of `_orthogonalize` (utils.py lines 403-409): `Q` is the
output of the external QR kernel on the constraint matrix, and the result
is `X - (Q @ Q.T) @ X`. -/
def orthogonalize (qrFn : NMat → NMat) (constraints X : NMat) : NMat :=
  nsub X (nmul (nmul (qrFn constraints) (ntr (qrFn constraints))) X)

/-- The body of the loop of `_orthogonalize_spline_wrt_non_splines`
(utils.py lines 415-428) for one spline term: gather the constraint blocks
from the current matrix, and if any exist overwrite the spline's columns
with the projection of its block onto the orthogonal complement of the
constraint columns. -/
def orthStep (qrFn : NMat → NMat) (nonSplines : List SliceInfo)
    (Mcur : NMat) (s : SliceInfo) : NMat :=
  let X := colBlock Mcur s.lo s.hi
  let cs := gatherConstraints Mcur nonSplines s.feats
  if 0 < cs.length then
    setBlock Mcur s.lo s.hi (orthogonalize qrFn (concatCols Mcur.rows cs) X)
  else Mcur

/-- Embedding of `_orthogonalize_spline_wrt_non_splines` (utils.py lines
411-428): the loop over the spline terms in order. -/
def orthogonalize_spline_wrt_non_splines (qrFn : NMat → NMat) (M : NMat)
    (splines nonSplines : List SliceInfo) : NMat :=
  splines.foldl (orthStep qrFn nonSplines) M

lemma orthStep_eq (qrFn : NMat → NMat) (nonSplines : List SliceInfo)
    (Mcur : NMat) (s : SliceInfo) :
    orthStep qrFn nonSplines Mcur s =
      (if 0 < (gatherConstraints Mcur nonSplines s.feats).length then
        setBlock Mcur s.lo s.hi
          (orthogonalize qrFn
            (concatCols Mcur.rows (gatherConstraints Mcur nonSplines s.feats))
            (colBlock Mcur s.lo s.hi))
      else Mcur) := rfl

lemma setBlock_rows (M : NMat) (lo hi : ℕ) (X : NMat) :
    (setBlock M lo hi X).rows = M.rows := rfl

lemma setBlock_entry_outside (M : NMat) (lo hi : ℕ) (X : NMat) (i j : ℕ)
    (h : ¬ (lo ≤ j ∧ j < hi)) : (setBlock M lo hi X).entry i j = M.entry i j := by
  show (if lo ≤ j ∧ j < hi then X.entry i (j - lo) else M.entry i j) = M.entry i j
  exact if_neg h

lemma orthStep_rows (qrFn : NMat → NMat) (nonSplines : List SliceInfo)
    (M : NMat) (s : SliceInfo) : (orthStep qrFn nonSplines M s).rows = M.rows := by
  rw [orthStep_eq]
  split
  · rfl
  · rfl

lemma orthStep_entry_outside (qrFn : NMat → NMat) (nonSplines : List SliceInfo)
    (M : NMat) (s : SliceInfo) (i j : ℕ) (h : ¬ inSlice s j) :
    (orthStep qrFn nonSplines M s).entry i j = M.entry i j := by
  rw [orthStep_eq]
  split
  · exact setBlock_entry_outside M s.lo s.hi _ i j h
  · rfl

lemma orthLoop_preserve (qrFn : NMat → NMat) (nonSplines : List SliceInfo) :
    ∀ (splines : List SliceInfo) (M : NMat) (j : ℕ),
      (∀ s ∈ splines, ¬ inSlice s j) → ∀ i,
        (orthogonalize_spline_wrt_non_splines qrFn M splines nonSplines).entry i j =
          M.entry i j := by
  intro splines
  induction splines with
  | nil => intro M j _ i; rfl
  | cons s rest ih =>
    intro M j hnot i
    have hcons : orthogonalize_spline_wrt_non_splines qrFn M (s :: rest) nonSplines =
        orthogonalize_spline_wrt_non_splines qrFn (orthStep qrFn nonSplines M s) rest
          nonSplines := rfl
    rw [hcons, ih (orthStep qrFn nonSplines M s) j
      (fun s' hs' => hnot s' (List.mem_cons_of_mem _ hs')) i]
    exact orthStep_entry_outside qrFn nonSplines M s i j (hnot s (List.mem_cons_self s _))

lemma orthLoop_rows (qrFn : NMat → NMat) (nonSplines : List SliceInfo) :
    ∀ (splines : List SliceInfo) (M : NMat),
      (orthogonalize_spline_wrt_non_splines qrFn M splines nonSplines).rows = M.rows := by
  intro splines
  induction splines with
  | nil => intro M; rfl
  | cons s rest ih =>
    intro M
    have hcons : orthogonalize_spline_wrt_non_splines qrFn M (s :: rest) nonSplines =
        orthogonalize_spline_wrt_non_splines qrFn (orthStep qrFn nonSplines M s) rest
          nonSplines := rfl
    rw [hcons, ih (orthStep qrFn nonSplines M s)]
    exact orthStep_rows qrFn nonSplines M s

lemma colBlock_congr (M M' : NMat) (lo hi : ℕ) (hrows : M'.rows = M.rows)
    (h : ∀ i j, i < M.rows → lo ≤ j → j < hi → M'.entry i j = M.entry i j) :
    colBlock M' lo hi = colBlock M lo hi := by
  unfold colBlock
  rw [hrows]
  congr 1
  funext i j
  by_cases hij : i < M.rows ∧ j < hi - lo
  · rw [if_pos hij, if_pos hij]
    exact h i (lo + j) hij.1 (Nat.le_add_right _ _) (by omega)
  · rw [if_neg hij, if_neg hij]

lemma gather_congr (M M' : NMat) (nonSplines : List SliceInfo) (feats : List String)
    (hrows : M'.rows = M.rows)
    (h : ∀ ns ∈ nonSplines, ∀ i j, i < M.rows → ns.lo ≤ j → j < ns.hi →
      M'.entry i j = M.entry i j) :
    gatherConstraints M' nonSplines feats = gatherConstraints M nonSplines feats := by
  unfold gatherConstraints
  apply List.map_congr_left
  intro ns hns
  exact colBlock_congr M M' ns.lo ns.hi hrows (h ns (List.mem_of_mem_filter hns))

lemma concatCols_lookup (n : ℕ) :
    ∀ (ms : List NMat) (k : ℕ) (A : NMat), ms.get? k = some A →
      ∀ jA, jA < A.cols →
        ∃ jc, jc < (concatCols n ms).cols ∧
          ∀ i, (concatCols n ms).entry i jc = A.entry i jA := by
  intro ms
  induction ms with
  | nil => intro k A hk; simp at hk
  | cons B rest ih =>
    intro k A hk jA hjA
    cases k with
    | zero =>
      simp only [List.get?] at hk
      injection hk with hk
      subst hk
      refine ⟨jA, ?_, ?_⟩
      · show jA < B.cols + (concatCols n rest).cols
        omega
      · intro i
        show (if jA < B.cols then B.entry i jA else (concatCols n rest).entry i (jA - B.cols))
            = B.entry i jA
        rw [if_pos hjA]
    | succ k =>
      simp only [List.get?] at hk
      obtain ⟨jc, hjc, hval⟩ := ih k A hk jA hjA
      refine ⟨B.cols + jc, ?_, ?_⟩
      · show B.cols + jc < B.cols + (concatCols n rest).cols
        omega
      · intro i
        show (if B.cols + jc < B.cols then B.entry i (B.cols + jc)
              else (concatCols n rest).entry i (B.cols + jc - B.cols)) = A.entry i jA
        rw [if_neg (by omega), Nat.add_sub_cancel_left]
        exact hval i

lemma constraint_orthogonal
    (Q C X : NMat) (n : ℕ)
    (hQrows : Q.rows = n)
    (hortho : ∀ l m, l < Q.cols → m < Q.cols →
      (∑ k ∈ Finset.range n, Q.entry k l * Q.entry k m) = if l = m then (1 : ℚ) else 0)
    (R : ℕ → ℕ → ℚ)
    (hQR : ∀ i jc, i < n → jc < C.cols →
      C.entry i jc = ∑ m ∈ Finset.range Q.cols, Q.entry i m * R m jc)
    (jc jx : ℕ) (hjc : jc < C.cols) :
    (∑ i ∈ Finset.range n,
      C.entry i jc * (nsub X (nmul (nmul Q (ntr Q)) X)).entry i jx) = 0 := by
  have hPX : ∀ i, (nmul (nmul Q (ntr Q)) X).entry i jx =
      ∑ k ∈ Finset.range n,
        (∑ m ∈ Finset.range Q.cols, Q.entry i m * Q.entry k m) * X.entry k jx := by
    intro i
    show (∑ k ∈ Finset.range Q.rows,
        (∑ m ∈ Finset.range Q.cols, Q.entry i m * Q.entry k m) * X.entry k jx) = _
    rw [hQrows]
  have hCQ : ∀ m, m < Q.cols →
      (∑ i ∈ Finset.range n, C.entry i jc * Q.entry i m) = R m jc := by
    intro m hm
    calc (∑ i ∈ Finset.range n, C.entry i jc * Q.entry i m)
        = ∑ i ∈ Finset.range n, ∑ mm ∈ Finset.range Q.cols,
            Q.entry i mm * R mm jc * Q.entry i m := by
          apply Finset.sum_congr rfl
          intro i hi
          rw [hQR i jc (Finset.mem_range.mp hi) hjc, Finset.sum_mul]
      _ = ∑ mm ∈ Finset.range Q.cols, ∑ i ∈ Finset.range n,
            Q.entry i mm * R mm jc * Q.entry i m := Finset.sum_comm
      _ = ∑ mm ∈ Finset.range Q.cols,
            R mm jc * ∑ i ∈ Finset.range n, Q.entry i mm * Q.entry i m := by
          apply Finset.sum_congr rfl
          intro mm _
          rw [Finset.mul_sum]
          apply Finset.sum_congr rfl
          intro i _
          ring
      _ = ∑ mm ∈ Finset.range Q.cols, R mm jc * (if mm = m then (1 : ℚ) else 0) := by
          apply Finset.sum_congr rfl
          intro mm hmm
          rw [hortho mm m (Finset.mem_range.mp hmm) hm]
      _ = R m jc := by
          simp only [mul_ite, mul_one, mul_zero, Finset.sum_ite_eq', Finset.mem_range]
          rw [if_pos hm]
  have hproj : (∑ i ∈ Finset.range n, C.entry i jc * (nmul (nmul Q (ntr Q)) X).entry i jx)
      = ∑ i ∈ Finset.range n, C.entry i jc * X.entry i jx := by
    calc (∑ i ∈ Finset.range n, C.entry i jc * (nmul (nmul Q (ntr Q)) X).entry i jx)
        = ∑ i ∈ Finset.range n, ∑ k ∈ Finset.range n, ∑ m ∈ Finset.range Q.cols,
            C.entry i jc * Q.entry i m * (Q.entry k m * X.entry k jx) := by
          apply Finset.sum_congr rfl
          intro i _
          rw [hPX i, Finset.mul_sum]
          apply Finset.sum_congr rfl
          intro k _
          rw [Finset.sum_mul, Finset.mul_sum]
          apply Finset.sum_congr rfl
          intro m _
          ring
      _ = ∑ k ∈ Finset.range n, ∑ m ∈ Finset.range Q.cols,
            (∑ i ∈ Finset.range n, C.entry i jc * Q.entry i m) *
              (Q.entry k m * X.entry k jx) := by
          rw [Finset.sum_comm]
          apply Finset.sum_congr rfl
          intro k _
          rw [Finset.sum_comm]
          apply Finset.sum_congr rfl
          intro m _
          rw [Finset.sum_mul]
      _ = ∑ k ∈ Finset.range n, ∑ m ∈ Finset.range Q.cols,
            R m jc * (Q.entry k m * X.entry k jx) := by
          apply Finset.sum_congr rfl
          intro k _
          apply Finset.sum_congr rfl
          intro m hm
          rw [hCQ m (Finset.mem_range.mp hm)]
      _ = ∑ k ∈ Finset.range n,
            (∑ m ∈ Finset.range Q.cols, Q.entry k m * R m jc) * X.entry k jx := by
          apply Finset.sum_congr rfl
          intro k _
          rw [Finset.sum_mul]
          apply Finset.sum_congr rfl
          intro m _
          ring
      _ = ∑ k ∈ Finset.range n, C.entry k jc * X.entry k jx := by
          apply Finset.sum_congr rfl
          intro k hk
          rw [hQR k jc (Finset.mem_range.mp hk) hjc]
  have hsplit : (∑ i ∈ Finset.range n,
      C.entry i jc * (nsub X (nmul (nmul Q (ntr Q)) X)).entry i jx)
      = (∑ i ∈ Finset.range n, C.entry i jc * X.entry i jx)
        - ∑ i ∈ Finset.range n, C.entry i jc * (nmul (nmul Q (ntr Q)) X).entry i jx := by
    rw [← Finset.sum_sub_distrib]
    apply Finset.sum_congr rfl
    intro i _
    show C.entry i jc * (X.entry i jx - (nmul (nmul Q (ntr Q)) X).entry i jx) = _
    ring
  rw [hsplit, hproj, sub_self]

lemma orthLoop_slice_value (qrFn : NMat → NMat) (nonSplines : List SliceInfo) :
    ∀ (splines : List SliceInfo) (M : NMat),
      splines.Pairwise sliceInfoDisjoint →
      (∀ s ∈ splines, ∀ ns ∈ nonSplines, ∀ j, inSlice s j → ¬ inSlice ns j) →
      ∀ s ∈ splines, ∀ i c, inSlice s c →
        (orthogonalize_spline_wrt_non_splines qrFn M splines nonSplines).entry i c =
          (if 0 < (gatherConstraints M nonSplines s.feats).length then
            (orthogonalize qrFn (constraintMat M nonSplines s.feats)
              (colBlock M s.lo s.hi)).entry i (c - s.lo)
          else M.entry i c) := by
  intro splines
  induction splines with
  | nil => intro M _ _ s hs; simp at hs
  | cons s0 rest ih =>
    intro M hpw hsn s hs i c hc
    have hcons : orthogonalize_spline_wrt_non_splines qrFn M (s0 :: rest) nonSplines =
        orthogonalize_spline_wrt_non_splines qrFn (orthStep qrFn nonSplines M s0) rest
          nonSplines := rfl
    rw [List.pairwise_cons] at hpw
    obtain ⟨hd, hpw'⟩ := hpw
    have hM1rows : (orthStep qrFn nonSplines M s0).rows = M.rows :=
      orthStep_rows qrFn nonSplines M s0
    have hM1out : ∀ i' j, ¬ inSlice s0 j →
        (orthStep qrFn nonSplines M s0).entry i' j = M.entry i' j :=
      fun i' j h => orthStep_entry_outside qrFn nonSplines M s0 i' j h
    rcases List.mem_cons.mp hs with hs0 | hsrest
    · subst hs0
      have hc' : s.lo ≤ c ∧ c < s.hi := hc
      have hnotrest : ∀ s' ∈ rest, ¬ inSlice s' c := by
        intro s' hs' hcs'
        have hcs'' : s'.lo ≤ c ∧ c < s'.hi := hcs'
        rcases hd s' hs' with h | h
        · omega
        · omega
      rw [hcons, orthLoop_preserve qrFn nonSplines rest _ c hnotrest i]
      by_cases hlen : 0 < (gatherConstraints M nonSplines s.feats).length
      · rw [if_pos hlen, orthStep_eq, if_pos hlen]
        show (if s.lo ≤ c ∧ c < s.hi then
            (orthogonalize qrFn
              (concatCols M.rows (gatherConstraints M nonSplines s.feats))
              (colBlock M s.lo s.hi)).entry i (c - s.lo)
          else M.entry i c) = _
        rw [if_pos hc']
        rfl
      · rw [if_neg hlen, orthStep_eq, if_neg hlen]
    · have hsn' : ∀ s' ∈ rest, ∀ ns ∈ nonSplines, ∀ j, inSlice s' j → ¬ inSlice ns j :=
        fun s' hs' => hsn s' (List.mem_cons_of_mem _ hs')
      have ihs := ih (orthStep qrFn nonSplines M s0) hpw' hsn' s hsrest i c hc
      rw [hcons, ihs]
      have hnots0 : ∀ j, inSlice s j → ¬ inSlice s0 j := by
        intro j hj hj0
        have hj' : s.lo ≤ j ∧ j < s.hi := hj
        have hj0' : s0.lo ≤ j ∧ j < s0.hi := hj0
        rcases hd s hsrest with h | h
        · omega
        · omega
      have hg : gatherConstraints (orthStep qrFn nonSplines M s0) nonSplines s.feats =
          gatherConstraints M nonSplines s.feats := by
        apply gather_congr M _ nonSplines s.feats hM1rows
        intro ns hns i' j _ hj1 hj2
        apply hM1out
        intro hj0
        exact hsn s0 (List.mem_cons_self s0 _) ns hns j hj0 ⟨hj1, hj2⟩
      have hcb : colBlock (orthStep qrFn nonSplines M s0) s.lo s.hi =
          colBlock M s.lo s.hi := by
        apply colBlock_congr M _ s.lo s.hi hM1rows
        intro i' j _ hj1 hj2
        exact hM1out i' j (hnots0 j ⟨hj1, hj2⟩)
      have hcm : constraintMat (orthStep qrFn nonSplines M s0) nonSplines s.feats =
          constraintMat M nonSplines s.feats := by
        unfold constraintMat
        rw [hg, hM1rows]
      have hMe : (orthStep qrFn nonSplines M s0).entry i c = M.entry i c :=
        hM1out i c (hnots0 c hc)
      rw [hg, hcb, hcm, hMe]

lemma gather_pos (M : NMat) (nonSplines : List SliceInfo) (feats : List String)
    (ns : SliceInfo) (hns : ns ∈ nonSplines) (hsub : featSubset ns.feats feats = true) :
    0 < (gatherConstraints M nonSplines feats).length := by
  unfold gatherConstraints
  rw [List.length_map]
  exact List.length_pos.mpr (List.ne_nil_of_mem (List.mem_filter.mpr ⟨hns, hsub⟩))

lemma constraintMat_column (M : NMat) (nonSplines : List SliceInfo) (feats : List String)
    (ns : SliceInfo) (hns : ns ∈ nonSplines) (hsub : featSubset ns.feats feats = true)
    (j : ℕ) (hj : inSlice ns j) :
    ∃ jc, jc < (constraintMat M nonSplines feats).cols ∧
      ∀ i, i < M.rows → (constraintMat M nonSplines feats).entry i jc = M.entry i j := by
  have hj' : ns.lo ≤ j ∧ j < ns.hi := hj
  have hmem : ns ∈ nonSplines.filter (fun ns' => featSubset ns'.feats feats) :=
    List.mem_filter.mpr ⟨hns, hsub⟩
  obtain ⟨k, hk⟩ := List.mem_iff_get?.mp hmem
  have hmap : (gatherConstraints M nonSplines feats).get? k =
      some (colBlock M ns.lo ns.hi) := by
    unfold gatherConstraints
    rw [List.get?_map, hk]
    rfl
  have hjA : j - ns.lo < (colBlock M ns.lo ns.hi).cols := by
    show j - ns.lo < ns.hi - ns.lo
    omega
  obtain ⟨jc, hjc, hval⟩ :=
    concatCols_lookup M.rows (gatherConstraints M nonSplines feats) k
      (colBlock M ns.lo ns.hi) hmap (j - ns.lo) hjA
  refine ⟨jc, hjc, ?_⟩
  intro i hi
  rw [show constraintMat M nonSplines feats =
      concatCols M.rows (gatherConstraints M nonSplines feats) from rfl]
  rw [hval i]
  show (if i < M.rows ∧ j - ns.lo < ns.hi - ns.lo then M.entry i (ns.lo + (j - ns.lo))
        else 0) = M.entry i j
  rw [if_pos ⟨hi, by omega⟩]
  congr 1
  omega

/-- Reference data reproducing the spec's orthogonality example over four
observations: column 0 is the intercept, column 1 the linear feature `x1`,
column 2 the linear feature `x2`, and column 3 a one-column spline block on
`x1`. -/
def cOrthoM : NMat :=
  ⟨4, 4, fun i j =>
    if j = 0 then 1
    else if j = 1 then (if i ≤ 1 then 1 else -1)
    else if j = 2 then (if i = 0 then 1 else 0)
    else if j = 3 then (if i = 0 then 1 else if i = 1 then -1 else 0)
    else 0⟩

/-- The single spline term of the reference data: columns `[3, 4)`,
feature set containing only `x1`. -/
def cSplines : List SliceInfo := [⟨3, 4, ["x1"]⟩]

/-- The non-spline terms of the reference data: intercept, `x1`, `x2`. -/
def cNonSplines : List SliceInfo :=
  [⟨0, 1, []⟩, ⟨1, 2, ["x1"]⟩, ⟨2, 3, ["x2"]⟩]

/-- The exact reduced QR factor of the reference constraint matrix
(intercept and `x1` columns): two orthonormal columns, with
`R = diag(2, 2)`. -/
def cQ : NMat :=
  ⟨4, 2, fun i j =>
    if j = 0 then 1 / 2
    else if j = 1 then (if i ≤ 1 then 1 / 2 else -(1 / 2))
    else 0⟩

/-- The QR kernel for the reference data. -/
def cQr : NMat → NMat := fun _ => cQ

/-- C6: after orthogonalization, (i) only spline columns are overwritten,
(ii) for every spline term, its columns have inner product exactly 0 (thus
below the 0.01 threshold) with the columns of every non-spline term whose
feature set is a subset of the spline term's feature set, provided the QR
kernel satisfies the QR contract on each constraint matrix, and (iii) on
the reference data the spline column is not orthogonal to the `x2` column,
whose feature set is not a subset. -/
theorem orthogonalization_contract
    (qrFn : NMat → NMat) (M : NMat) (splines nonSplines : List SliceInfo)
    (hsp : splines.Pairwise sliceInfoDisjoint)
    (hsn : ∀ s ∈ splines, ∀ ns ∈ nonSplines, ∀ j, inSlice s j → ¬ inSlice ns j)
    (hqr : ∀ s ∈ splines,
      (qrFn (constraintMat M nonSplines s.feats)).rows = M.rows ∧
      (∀ l, l < (qrFn (constraintMat M nonSplines s.feats)).cols →
        ∀ m, m < (qrFn (constraintMat M nonSplines s.feats)).cols →
        (∑ k ∈ Finset.range M.rows,
          (qrFn (constraintMat M nonSplines s.feats)).entry k l *
            (qrFn (constraintMat M nonSplines s.feats)).entry k m) =
          if l = m then (1 : ℚ) else 0) ∧
      (∃ R : ℕ → ℕ → ℚ, ∀ i, i < M.rows →
        ∀ jc, jc < (constraintMat M nonSplines s.feats).cols →
        (constraintMat M nonSplines s.feats).entry i jc =
          ∑ m ∈ Finset.range (qrFn (constraintMat M nonSplines s.feats)).cols,
            (qrFn (constraintMat M nonSplines s.feats)).entry i m * R m jc)) :
    ((∀ j, (∀ s ∈ splines, ¬ inSlice s j) → ∀ i,
        (orthogonalize_spline_wrt_non_splines qrFn M splines nonSplines).entry i j =
          M.entry i j) ∧
     (∀ s ∈ splines, ∀ ns ∈ nonSplines, featSubset ns.feats s.feats = true →
        ∀ c j, inSlice s c → inSlice ns j →
          |∑ i ∈ Finset.range M.rows,
            (orthogonalize_spline_wrt_non_splines qrFn M splines nonSplines).entry i c *
              (orthogonalize_spline_wrt_non_splines qrFn M splines nonSplines).entry i j| <
            1 / 100)) ∧
    ¬ (|∑ i ∈ Finset.range 4,
          (orthogonalize_spline_wrt_non_splines cQr cOrthoM cSplines cNonSplines).entry i 3 *
            (orthogonalize_spline_wrt_non_splines cQr cOrthoM cSplines cNonSplines).entry i 2| <
        1 / 100) := by
  constructor
  · constructor
    · exact fun j h i => orthLoop_preserve qrFn nonSplines splines M j h i
    · intro s hs ns hns hsub c j hc hj
      have hMj : ∀ i,
          (orthogonalize_spline_wrt_non_splines qrFn M splines nonSplines).entry i j =
            M.entry i j :=
        fun i => orthLoop_preserve qrFn nonSplines splines M j
          (fun s' hs' hs'j => hsn s' hs' ns hns j hs'j hj) i
      have hlen : 0 < (gatherConstraints M nonSplines s.feats).length :=
        gather_pos M nonSplines s.feats ns hns hsub
      have hMc : ∀ i,
          (orthogonalize_spline_wrt_non_splines qrFn M splines nonSplines).entry i c =
            (orthogonalize qrFn (constraintMat M nonSplines s.feats)
              (colBlock M s.lo s.hi)).entry i (c - s.lo) := by
        intro i
        rw [orthLoop_slice_value qrFn nonSplines splines M hsp hsn s hs i c hc,
          if_pos hlen]
      obtain ⟨jc, hjc, hCcol⟩ := constraintMat_column M nonSplines s.feats ns hns hsub j hj
      obtain ⟨hQrows, hortho, R, hQR⟩ := hqr s hs
      have hzero := constraint_orthogonal (qrFn (constraintMat M nonSplines s.feats))
        (constraintMat M nonSplines s.feats) (colBlock M s.lo s.hi) M.rows hQrows
        (fun l m hl hm => hortho l hl m hm) R
        (fun i jcv hi hjcv => hQR i hi jcv hjcv) jc (c - s.lo) hjc
      have hsum : (∑ i ∈ Finset.range M.rows,
          (orthogonalize_spline_wrt_non_splines qrFn M splines nonSplines).entry i c *
            (orthogonalize_spline_wrt_non_splines qrFn M splines nonSplines).entry i j) =
          0 := by
        rw [← hzero]
        apply Finset.sum_congr rfl
        intro i hi
        rw [hMc i, hMj i, ← hCcol i (Finset.mem_range.mp hi)]
        show (orthogonalize qrFn (constraintMat M nonSplines s.feats)
            (colBlock M s.lo s.hi)).entry i (c - s.lo) *
            (constraintMat M nonSplines s.feats).entry i jc = _
        rw [mul_comm]
        rfl
      rw [hsum]
      norm_num
  · with_unfolding_all decide

theorem orthogonalization_contract_witness :
    |∑ i ∈ Finset.range 4,
        (orthogonalize_spline_wrt_non_splines cQr cOrthoM cSplines cNonSplines).entry i 3 *
          (orthogonalize_spline_wrt_non_splines cQr cOrthoM cSplines cNonSplines).entry i 0| <
      1 / 100 ∧
    |∑ i ∈ Finset.range 4,
        (orthogonalize_spline_wrt_non_splines cQr cOrthoM cSplines cNonSplines).entry i 3 *
          (orthogonalize_spline_wrt_non_splines cQr cOrthoM cSplines cNonSplines).entry i 1| <
      1 / 100 ∧
    (orthogonalize_spline_wrt_non_splines cQr cOrthoM cSplines cNonSplines).entry 0 2 =
      cOrthoM.entry 0 2 := by
  have hsp : cSplines.Pairwise sliceInfoDisjoint := by decide
  have hsn : ∀ s ∈ cSplines, ∀ ns ∈ cNonSplines, ∀ j, inSlice s j → ¬ inSlice ns j := by
    intro s hs ns hns j hj hnsj
    have hs' : s = ⟨3, 4, ["x1"]⟩ := by simpa [cSplines] using hs
    subst hs'
    have h1 : (3 : ℕ) ≤ j ∧ j < 4 := hj
    have h2 : ns.lo ≤ j ∧ j < ns.hi := hnsj
    have h3 : ns.hi ≤ 3 := by fin_cases hns <;> decide
    omega
  have hqr : ∀ s ∈ cSplines,
      (cQr (constraintMat cOrthoM cNonSplines s.feats)).rows = cOrthoM.rows ∧
      (∀ l, l < (cQr (constraintMat cOrthoM cNonSplines s.feats)).cols →
        ∀ m, m < (cQr (constraintMat cOrthoM cNonSplines s.feats)).cols →
        (∑ k ∈ Finset.range cOrthoM.rows,
          (cQr (constraintMat cOrthoM cNonSplines s.feats)).entry k l *
            (cQr (constraintMat cOrthoM cNonSplines s.feats)).entry k m) =
          if l = m then (1 : ℚ) else 0) ∧
      (∃ R : ℕ → ℕ → ℚ, ∀ i, i < cOrthoM.rows →
        ∀ jc, jc < (constraintMat cOrthoM cNonSplines s.feats).cols →
        (constraintMat cOrthoM cNonSplines s.feats).entry i jc =
          ∑ m ∈ Finset.range (cQr (constraintMat cOrthoM cNonSplines s.feats)).cols,
            (cQr (constraintMat cOrthoM cNonSplines s.feats)).entry i m * R m jc) := by
    intro s hs
    have hs' : s = ⟨3, 4, ["x1"]⟩ := by simpa [cSplines] using hs
    subst hs'
    refine ⟨rfl, ?_, ⟨fun m jcv => if m = jcv then 2 else 0, ?_⟩⟩
    · with_unfolding_all decide
    · with_unfolding_all decide
  obtain ⟨⟨hpres, horth⟩, _⟩ :=
    orthogonalization_contract cQr cOrthoM cSplines cNonSplines hsp hsn hqr
  refine ⟨?_, ?_, ?_⟩
  · exact horth ⟨3, 4, ["x1"]⟩ (by simp [cSplines]) ⟨0, 1, []⟩ (by simp [cNonSplines])
      (by decide) 3 0 (by decide) (by decide)
  · exact horth ⟨3, 4, ["x1"]⟩ (by simp [cSplines]) ⟨1, 2, ["x1"]⟩ (by simp [cNonSplines])
      (by decide) 3 1 (by decide) (by decide)
  · exact hpres 2 (by decide) 0

/-- Python string split semantics (`s.split(sep)`) on character lists:
splitting the empty string yields one empty part, and every separator
starts a new part. -/
def pySplit (sep : Char) : List Char → List (List Char)
  | [] => [[]]
  | c :: rest =>
    match pySplit sep rest with
    | [] => [[]]
    | h :: t => if c = sep then [] :: h :: t else (c :: h) :: t

/-- The prefix of a string before the first occurrence of `sep`, which is
Python's `s.split(sep)[0]`. -/
def takeUntil (sep : Char) (s : List Char) : List Char :=
  s.takeWhile (fun c => c ≠ sep)

/-- Embedding of `_split_formula` (utils.py lines 47-82): remove spaces and
tildes, split on the additive operator, classify each part by whether its
prefix before an opening parenthesis is a known network name, and rejoin
the structured parts with the additive operator. -/
def split_formula (formula : List Char) (netNames : List (List Char)) :
    List Char × List (List Char) :=
  let f := (formula.filter (fun c => c ≠ ' ')).filter (fun c => c ≠ '~')
  let parts := pySplit '+' f
  let (unstructured_terms, structured_terms) :=
    parts.partition (fun p => netNames.contains (takeUntil '(' p))
  (List.intercalate ['+'] structured_terms, unstructured_terms)

/-- Embedding of `_checkups` (utils.py lines 17-45): every distribution
parameter keeps the formula given for it, and a parameter without a
formula is assigned the null-model formula. -/
def checkups (params : List (List Char)) (formulas : List (List Char × List Char)) :
    List (List Char × List Char) :=
  params.map (fun p =>
    match formulas.find? (fun q => q.1 == p) with
    | some q => (p, q.2)
    | none => (p, ['~', '0']))

/-- Column lookup `data[name]` in the observation table, modelled as an
association list from feature name to column. -/
def dataLookup (data : List (List Char × List ℚ)) (name : List Char) :
    Option (List ℚ) :=
  (data.find? (fun q => q.1 == name)).map (fun q => q.2)

/-- The columns `data[feature_names_list]` in the requested order; a
missing name is a pandas `KeyError`. -/
def lookupAll (data : List (List Char × List ℚ)) : List (List Char) →
    Option (List (List ℚ))
  | [] => some []
  | nm :: rest =>
    match dataLookup data nm with
    | none => none
    | some col =>
      match lookupAll data rest with
      | none => none
      | some cols => some (col :: cols)

/-- Processing of one external-model term of the formula (utils.py lines
518-530): the network name is the part before the opening parenthesis, the
feature names are the comma-separated list before the closing parenthesis,
and the recorded raw-feature matrix is the dataset's columns for those
names in exactly that order. -/
def unstructuredTerm (data : List (List Char × List ℚ)) (term : List Char) :
    Except String (List Char × List (List ℚ)) :=
  match (pySplit '(' term).get? 1 with
  | none => .error "IndexError: list index out of range"
  | some afterParen =>
    match lookupAll data (pySplit ',' (takeUntil ')' afterParen)) with
    | none => .error "KeyError: feature name not in data"
    | some cols => .ok (takeUntil '(' term, cols)

/-- Sequential processing of the external-model terms, stopping at the
first error, as the Python loop does. -/
def unstructuredTerms (data : List (List Char × List ℚ)) :
    List (List Char) → Except String (List (List Char × List (List ℚ)))
  | [] => .ok []
  | t :: rest =>
    match unstructuredTerm data t with
    | .error e => .error e
    | .ok u =>
      match unstructuredTerms data rest with
      | .error e => .error e
      | .ok us => .ok (u :: us)

/-- The per-parameter core of `parse_formulas` (utils.py lines 479-531)
relevant to the formula partition: split the formula, substitute the
null-model formula when the structured part is empty (line 490), build the
structured matrix through the external formula-evaluation engine `dmat`
(patsy's `dmatrix`, line 493), and record the raw-feature matrix for each
external-model term. -/
def parse_formulas_param {α : Type} (dmat : List Char → List (List Char × List ℚ) → α)
    (data : List (List Char × List ℚ)) (formula : List Char)
    (netNames : List (List Char)) :
    Except String (α × List (List Char × List (List ℚ))) :=
  match split_formula formula netNames with
  | (structured_part, uterms) =>
    let sp := if structured_part = [] then ['~', '0'] else structured_part
    match unstructuredTerms data uterms with
    | .error e => .error e
    | .ok uns => .ok (dmat sp data, uns)

/-- C7: for the formula with an intercept and one external-model term
`d1(x2,x1,x3)`, the emitted raw-feature matrix for `d1` is the dataset's
columns `x2, x1, x3` in exactly that order, and the structured matrix is
the one the formula engine produces for the structured part of the
intercept-only formula. -/
theorem external_model_partition {α : Type}
    (dmat : List Char → List (List Char × List ℚ) → α)
    (data : List (List Char × List ℚ)) (c1 c2 c3 : List ℚ)
    (h1 : dataLookup data (("x1").toList) = some c1)
    (h2 : dataLookup data (("x2").toList) = some c2)
    (h3 : dataLookup data (("x3").toList) = some c3) :
    parse_formulas_param dmat data (("~1+d1(x2,x1,x3)").toList) [("d1").toList] =
      .ok (dmat (("1").toList) data, [(("d1").toList, [c2, c1, c3])]) ∧
    parse_formulas_param dmat data (("~1").toList) [("d1").toList] =
      .ok (dmat (("1").toList) data, []) := by
  constructor
  · have hsplit : split_formula (("~1+d1(x2,x1,x3)").toList) [("d1").toList] =
        (("1").toList, [("d1(x2,x1,x3)").toList]) := by decide
    have hlook : lookupAll data [("x2").toList, ("x1").toList, ("x3").toList] =
        some [c2, c1, c3] := by
      simp only [lookupAll, h1, h2, h3]
    have hterm : unstructuredTerm data (("d1(x2,x1,x3)").toList) =
        .ok (("d1").toList, [c2, c1, c3]) := by
      have hidx : (pySplit '(' (("d1(x2,x1,x3)").toList)).get? 1 =
          some (("x2,x1,x3)").toList) := by decide
      unfold unstructuredTerm
      rw [hidx]
      show (match lookupAll data (pySplit ',' (takeUntil ')' (("x2,x1,x3)").toList))) with
        | none => (Except.error "KeyError: feature name not in data" :
            Except String (List Char × List (List ℚ)))
        | some cols => .ok (takeUntil '(' (("d1(x2,x1,x3)").toList), cols)) = _
      rw [show pySplit ',' (takeUntil ')' (("x2,x1,x3)").toList)) =
          [("x2").toList, ("x1").toList, ("x3").toList] from by decide]
      rw [hlook]
      rfl
    have hterms : unstructuredTerms data [("d1(x2,x1,x3)").toList] =
        .ok [(("d1").toList, [c2, c1, c3])] := by
      unfold unstructuredTerms
      rw [hterm]
      rfl
    unfold parse_formulas_param
    rw [hsplit]
    show (match unstructuredTerms data [("d1(x2,x1,x3)").toList] with
      | .error e => (Except.error e : Except String (α × List (List Char × List (List ℚ))))
      | .ok uns =>
        .ok (dmat (if (("1").toList : List Char) = [] then ['~', '0'] else ("1").toList)
          data, uns)) = _
    rw [hterms]
    rfl
  · have hsplit2 : split_formula (("~1").toList) [("d1").toList] =
        (("1").toList, []) := by decide
    unfold parse_formulas_param
    rw [hsplit2]
    rfl

theorem external_model_partition_witness :
    parse_formulas_param (fun s _ => s)
        [(("x1").toList, ([1] : List ℚ)), (("x2").toList, [2]), (("x3").toList, [3])]
        (("~1+d1(x2,x1,x3)").toList) [("d1").toList] =
      .ok (("1").toList, [(("d1").toList, [[2], [1], [3]])]) ∧
    parse_formulas_param (fun s _ => s)
        [(("x1").toList, ([1] : List ℚ)), (("x2").toList, [2]), (("x3").toList, [3])]
        (("~1").toList) [("d1").toList] =
      .ok (("1").toList, []) :=
  external_model_partition (fun s _ => s)
    [(("x1").toList, ([1] : List ℚ)), (("x2").toList, [2]), (("x3").toList, [3])]
    [1] [2] [3] (by decide) (by decide) (by decide)

lemma checkups_lookup (formulas : List (List Char × List Char)) :
    ∀ (params : List (List Char)) (p : List Char), p ∈ params →
      (checkups params formulas).find? (fun q => q.1 == p) =
        some (p, ((formulas.find? (fun q => q.1 == p)).map (fun q => q.2)).getD
          ['~', '0']) := by
  intro params
  induction params with
  | nil => intro p hp; simp at hp
  | cons a rest ih =>
    intro p hp
    have hhead : checkups (a :: rest) formulas =
        (match formulas.find? (fun q => q.1 == a) with
          | some q => (a, q.2)
          | none => (a, ['~', '0'])) :: checkups rest formulas := rfl
    by_cases hap : a = p
    · subst hap
      rw [hhead]
      cases hf : formulas.find? (fun q => q.1 == a) with
      | none => simp [List.find?]
      | some q => simp [List.find?]
    · have hmem : p ∈ rest := by
        rcases List.mem_cons.mp hp with h | h
        · exact absurd h.symm hap
        · exact h
      rw [hhead]
      have hne : (((match formulas.find? (fun q => q.1 == a) with
          | some q => (a, q.2)
          | none => (a, ['~', '0'])) : List Char × List Char).1 == p) = false := by
        cases formulas.find? (fun q => q.1 == a) with
        | none => simpa using hap
        | some q => simpa using hap
      rw [List.find?, hne]
      exact ih p hmem

/-- C9: a distribution parameter whose formula is absent from the caller's
formula map is assigned the null-model formula by `_checkups`, and a
formula whose structured part is empty after removing the external-model
terms has the null-model formula substituted before the structured matrix
is built, so the formula engine always receives a valid structured
formula. -/
theorem null_model_defaults :
    (∀ (params : List (List Char)) (formulas : List (List Char × List Char))
        (p : List Char), p ∈ params →
      (checkups params formulas).find? (fun q => q.1 == p) =
        some (p, ((formulas.find? (fun q => q.1 == p)).map (fun q => q.2)).getD
          ['~', '0'])) ∧
    (∀ (α : Type) (dmat : List Char → List (List Char × List ℚ) → α)
        (data : List (List Char × List ℚ)) (formula : List Char)
        (netNames : List (List Char)) (r : α × List (List Char × List (List ℚ))),
      (split_formula formula netNames).1 = [] →
      parse_formulas_param dmat data formula netNames = .ok r →
      r.1 = dmat ['~', '0'] data) := by
  constructor
  · exact fun params formulas p hp => checkups_lookup formulas params p hp
  · intro α dmat data formula netNames r hempty hok
    unfold parse_formulas_param at hok
    rcases hsplit : split_formula formula netNames with ⟨sp, uterms⟩
    rw [hsplit] at hok hempty
    simp only at hempty
    subst hempty
    have hok2 : (match unstructuredTerms data uterms with
        | .error e => (Except.error e : Except String (α × List (List Char × List (List ℚ))))
        | .ok uns => .ok (dmat ['~', '0'] data, uns)) = .ok r := hok
    cases hu : unstructuredTerms data uterms with
    | error e => rw [hu] at hok2; exact absurd hok2 (by simp)
    | ok uns =>
      rw [hu] at hok2
      simp only [Except.ok.injEq] at hok2
      rw [← hok2]

theorem null_model_defaults_witness :
    ((['b'] : List Char) ∈ [(['a'] : List Char), ['b']]) ∧
    (checkups [['a'], ['b']] [(['a'], ['~', '1'])]).find? (fun q => q.1 == ['b']) =
      some (['b'], ['~', '0']) ∧
    (split_formula (("~d1(x1)").toList) [("d1").toList]).1 = [] ∧
    (parse_formulas_param (fun s _ => s) [((("x1").toList), ([1] : List ℚ))]
        (("~d1(x1)").toList) [("d1").toList]).map (fun r => r.1) =
      .ok ['~', '0'] := by
  have hm : (['b'] : List Char) ∈ [(['a'] : List Char), ['b']] := by decide
  have hs : (split_formula (("~d1(x1)").toList) [("d1").toList]).1 = [] := by decide
  have hok : parse_formulas_param (fun s _ => s) [((("x1").toList), ([1] : List ℚ))]
      (("~d1(x1)").toList) [("d1").toList] =
      .ok (['~', '0'], [(("d1").toList, [[1]])]) := by with_unfolding_all rfl
  refine ⟨hm, ?_, hs, ?_⟩
  · exact null_model_defaults.1 [['a'], ['b']] [(['a'], ['~', '1'])] ['b'] hm
  · rw [hok]
    have h2 := null_model_defaults.2 (List Char) (fun s _ => s)
      [((("x1").toList), ([1] : List ℚ))] (("~d1(x1)").toList) [("d1").toList]
      (['~', '0'], [(("d1").toList, [[1]])]) hs hok
    exact congrArg (fun x => (Except.ok x : Except String (List Char))) h2
